import Mathlib

/-!
Verification of the cart-optimization core of the smart-grocery-cart
repository (`src/optimizer.py`, together with the dispatch wrappers in
`src/agent_core.py` and `src/lc_tools.py`).

Modelling conventions:
* A Python observation dict `{'price': ..., 'available': ...}` is a record
  whose fields may be absent.  `price = none` models a missing `price` key,
  `price = some none` models `price = None`, `price = some (some q)` a
  numeric price.  Likewise `available = none` models a missing key.
* Python dicts are association lists in insertion order; dict keys are
  assumed distinct where key-uniqueness matters (stated as `Nodup`
  hypotheses).
* Exceptions (`KeyError` from a missing key, `TypeError` from comparing or
  multiplying `None` with a number) are modelled with `Except PyErr`.
* Prices and fees are rationals.
* The PuLP solver is external to the repository: `ilp_optimize` is modelled
  as model construction (which can raise) followed by extraction of a
  solver-returned 0/1 assignment `x`; solver correctness is expressed by
  `ilpFeasible` / `ilpOptimal` hypotheses on `x`, `y`.
-/

/-- A Python runtime error relevant to the optimizer code. -/
inductive PyErr where
  | keyError
  | typeError
deriving Repr, DecidableEq

/-- One store observation for an item: the dict
`{'price': ..., 'available': ...}` from `optimizer.py`'s docstring, with
possibly-missing fields (outer `Option`) and a possibly-`None` price
(inner `Option`). -/
structure Obs where
  price : Option (Option ℚ)
  available : Option Bool
deriving Repr, DecidableEq

/-- An item's store map: `{store: {'price': ..., 'available': ...}}`. -/
abbrev Row := List (String × Obs)

/-- `price_table`: `dict item -> {store: {'price':..., 'available':...}}`. -/
abbrev PriceTable := List (String × Row)

/-- `delivery_fees`: `dict store -> fee`. -/
abbrev FeeTable := List (String × ℚ)

/-- Greedy's per-item result value: `None` or a `(store, price)` pair whose
price may itself be Python `None`. -/
abbrev GreedyVal := Option (String × Option ℚ)

/-- Output shape of `greedy_optimize`: `dict {item: (store, price) or None}`. -/
abbrev GreedyResult := List (String × GreedyVal)

/-- Output shape of `ilp_optimize`: `dict {item: (store, price)}` (an item
with no selected store is simply absent from the dict). -/
abbrev IlpResult := List (String × (String × Option ℚ))

/-- One iteration of the inner loop of `greedy_optimize`
(`optimizer.py` lines 13-17): skip if `not info['available']`
(`KeyError` if the key is missing), otherwise update `best` when
`best is None or info['price'] < best[1]` (`KeyError` for a missing
`price` key, `TypeError` when `<` compares `None` with a number). -/
def bestStep (best : GreedyVal) (s : String) (o : Obs) :
    Except PyErr GreedyVal :=
  match o.available with
  | none => .error .keyError
  | some false => .ok best
  | some true =>
    match o.price with
    | none => .error .keyError
    | some p =>
      match best with
      | none => .ok (some (s, p))
      | some (bs, bp) =>
        match p, bp with
        | some pq, some bq =>
          .ok (if pq < bq then some (s, some pq) else some (bs, some bq))
        | _, _ => .error .typeError

/-- The inner loop of `greedy_optimize` with explicit accumulator. -/
def greedyBestAux (best : GreedyVal) : Row → Except PyErr GreedyVal
  | [] => .ok best
  | (s, o) :: rest =>
    match bestStep best s o with
    | .error e => .error e
    | .ok b => greedyBestAux b rest

/-- `best` after the full inner loop over one item's stores. -/
def greedyBest (row : Row) : Except PyErr GreedyVal :=
  greedyBestAux none row

/-- The outer loop of `greedy_optimize` (`optimizer.py` lines 10-19):
`result[item] = best` per item, in table order; an exception aborts the
whole call. -/
def greedyRows : PriceTable → Except PyErr GreedyResult
  | [] => .ok []
  | (item, row) :: rest =>
    match greedyBest row with
    | .error e => .error e
    | .ok b =>
      match greedyRows rest with
      | .error e => .error e
      | .ok r => .ok ((item, b) :: r)

/-- `greedy_optimize(price_table, delivery_fees=None, max_stores=None)`:
both optional parameters are accepted and never read by the body. -/
def greedy_optimize (price_table : PriceTable)
    (delivery_fees : Option FeeTable) (max_stores : Option Nat) :
    Except PyErr GreedyResult :=
  greedyRows price_table

/-- `items = list(price_table.keys())` (`optimizer.py` line 23). -/
def itemsOf (pt : PriceTable) : List String := pt.map Prod.fst

/-- `stores`: the union of all store keys appearing anywhere in the table
(`optimizer.py` lines 24-27; a Python `set`, so only membership is
meaningful — we fix a concrete duplicate-free enumeration). -/
def storesOf (pt : PriceTable) : List String :=
  ((pt.map (fun r => r.2.map Prod.fst)).flatten).dedup

/-- `delivery_fees.get(s, 0)`; the `delivery_fees is None` default of
`optimizer.py` lines 28-29 sets every fee to `0`, which coincides with
looking keys up in the empty table. -/
def feeOf (fees : FeeTable) (s : String) : ℚ :=
  (fees.lookup s).getD 0

/-- The objective coefficient of `x[(i,s)]` as the code computes it
(`optimizer.py` line 43):
`price_table[i][s]['price'] if price_table[i][s]['available'] else 1e6`.
`KeyError` when item `i` has no record for store `s` or a needed field is
missing; `TypeError` when an available record's price is `None` (PuLP
cannot multiply `None` into the objective). -/
def costOf (pt : PriceTable) (i s : String) : Except PyErr ℚ :=
  match (pt.lookup i).bind (fun row => row.lookup s) with
  | none => .error .keyError
  | some o =>
    match o.available with
    | none => .error .keyError
    | some false => .ok 1000000
    | some true =>
      match o.price with
      | none => .error .keyError
      | some none => .error .typeError
      | some (some q) => .ok q

/-- The `(i, s)` pairs of the objective comprehension, item-major, in the
order the code enumerates them. -/
def pairsOf (pt : PriceTable) : List (String × String) :=
  ((itemsOf pt).map (fun i => (storesOf pt).map (fun s => (i, s)))).flatten

/-- Building the objective coefficients in comprehension order; the first
failing term aborts model construction. -/
def buildCostsAux (pt : PriceTable) :
    List (String × String) → Except PyErr (List ((String × String) × ℚ))
  | [] => .ok []
  | (i, s) :: rest =>
    match costOf pt i s with
    | .error e => .error e
    | .ok q =>
      match buildCostsAux pt rest with
      | .error e => .error e
      | .ok l => .ok (((i, s), q) :: l)

/-- Model construction of `ilp_optimize` (`optimizer.py` lines 42-45): the
objective's cost coefficients over all item/store pairs. -/
def buildCosts (pt : PriceTable) :
    Except PyErr (List ((String × String) × ℚ)) :=
  buildCostsAux pt (pairsOf pt)

/-- Total version of `costOf` used to state the objective; it agrees with
`costOf` whenever model construction succeeds. -/
def costQ (pt : PriceTable) (i s : String) : ℚ :=
  match costOf pt i s with
  | .ok q => q
  | .error _ => 0

/-- 0/1 indicator of a solver boolean. -/
def bind01 (b : Bool) : ℚ := if b then 1 else 0

/-- The item-price part of the objective, `Σ cost(i,s)·x[i,s]`. -/
def itemTerm (pt : PriceTable) (x : String → String → Bool) : ℚ :=
  ((pairsOf pt).map (fun p => costQ pt p.1 p.2 * bind01 (x p.1 p.2))).sum

/-- The delivery-fee part of the objective, `Σ fee(s)·y[s]`. -/
def feeTerm (pt : PriceTable) (fees : FeeTable) (y : String → Bool) : ℚ :=
  ((storesOf pt).map (fun s => feeOf fees s * bind01 (y s))).sum

/-- The full objective of the constructed ILP (`optimizer.py` lines 42-45). -/
def ilpObj (pt : PriceTable) (fees : FeeTable)
    (x : String → String → Bool) (y : String → Bool) : ℚ :=
  itemTerm pt x + feeTerm pt fees y

/-- The constraints of the constructed ILP (`optimizer.py` lines 48-54):
each item is assigned exactly one store, and `x[i,s] ≤ y[s]`. -/
def ilpFeasible (pt : PriceTable)
    (x : String → String → Bool) (y : String → Bool) : Prop :=
  (∀ i ∈ itemsOf pt, (storesOf pt).countP (fun s => x i s) = 1) ∧
  (∀ i ∈ itemsOf pt, ∀ s ∈ storesOf pt, x i s = true → y s = true)

/-- `prob.solve()` succeeded with an optimal solution: the returned `x`, `y`
are feasible and minimize the objective among all feasible solutions. -/
def ilpOptimal (pt : PriceTable) (fees : FeeTable)
    (x : String → String → Bool) (y : String → Bool) : Prop :=
  ilpFeasible pt x y ∧
  ∀ x' y', ilpFeasible pt x' y' → ilpObj pt fees x y ≤ ilpObj pt fees x' y'

/-- `price_table[i][s]['price']` as read back during extraction
(`optimizer.py` line 61). -/
def extractPrice (pt : PriceTable) (i s : String) :
    Except PyErr (Option ℚ) :=
  match (pt.lookup i).bind (fun row => row.lookup s) with
  | none => .error .keyError
  | some o =>
    match o.price with
    | none => .error .keyError
    | some p => .ok p

/-- The inner extraction loop for one item (`optimizer.py` lines 59-61):
every store with `x[(i,s)].value() == 1.0` overwrites `result[i]`, so the
last such store wins; reading the price of any selected store can raise. -/
def extractAux (pt : PriceTable) (x : String → String → Bool) (i : String) :
    List String → GreedyVal → Except PyErr GreedyVal
  | [], acc => .ok acc
  | s :: rest, acc =>
    if x i s then
      match extractPrice pt i s with
      | .error e => .error e
      | .ok p => extractAux pt x i rest (some (s, p))
    else
      extractAux pt x i rest acc

/-- The extraction loops of `ilp_optimize` (`optimizer.py` lines 57-62):
items with no selected store simply get no entry in `result`. -/
def ilpExtractRows (pt : PriceTable) (x : String → String → Bool) :
    List String → Except PyErr IlpResult
  | [] => .ok []
  | i :: rest =>
    match extractAux pt x i (storesOf pt) none with
    | .error e => .error e
    | .ok none => ilpExtractRows pt x rest
    | .ok (some v) =>
      match ilpExtractRows pt x rest with
      | .error e => .error e
      | .ok r => .ok ((i, v) :: r)

/-- `ilp_optimize(price_table, delivery_fees)`, with the solver's returned
0/1 assignment `x` passed explicitly: construct the model (which can
raise), then extract the result from `x`. -/
def ilp_optimize (pt : PriceTable) (fees : FeeTable)
    (x : String → String → Bool) : Except PyErr IlpResult :=
  match buildCosts pt with
  | .error e => .error e
  | .ok _ => ilpExtractRows pt x (itemsOf pt)

/-- The stores used by an ILP assignment result. -/
def usedStores (r : IlpResult) : List String :=
  (r.map (fun e => e.2.1)).dedup

/-- Spec-level total cost of an ILP assignment: chosen item prices plus the
delivery fee of every store with at least one assigned item. -/
def assignTotal (fees : FeeTable) (r : IlpResult) : ℚ :=
  (r.map (fun e => (e.2.2).getD 0)).sum + ((usedStores r).map (feeOf fees)).sum

/-- The stores used by a greedy result. -/
def greedyUsedStores (g : GreedyResult) : List String :=
  (g.filterMap (fun e => e.2.map Prod.fst)).dedup

/-- Spec-level total cost of a greedy result under a fee table: assigned
item prices plus the delivery fee of every store with at least one
assigned item. -/
def greedyTotal (fees : FeeTable) (g : GreedyResult) : ℚ :=
  (g.filterMap (fun e => e.2.bind Prod.snd)).sum +
    ((greedyUsedStores g).map (feeOf fees)).sum

/-- `optimize_cart(price_results, method="greedy", delivery_fees=None)` from
`agent_core.py` lines 28-33: runs greedy when `method == "greedy"`, else
runs the ILP (no error branch exists). -/
def optimize_cart (pt : PriceTable) (method : String) (fees : FeeTable)
    (x : String → String → Bool) :
    Except PyErr (GreedyResult ⊕ IlpResult) :=
  if method = "greedy" then
    (greedy_optimize pt (some fees) none).map Sum.inl
  else
    (ilp_optimize pt fees x).map Sum.inr

/-- Python `str.lower()`, modelled character by character. -/
def pyLower (s : String) : String := ⟨s.data.map Char.toLower⟩

/-- Python `str.startswith(pre)`, modelled on the character lists. -/
def pyStartsWith (s pre : String) : Bool := pre.data.isPrefixOf s.data

/-- `OptimizerTool._run` dispatch from `lc_tools.py` lines 147-150: runs the
ILP when `method.lower().startswith("ilp")`, else runs greedy (no error
branch exists). -/
def optimizerTool_run (pt : PriceTable) (method : String) (fees : FeeTable)
    (x : String → String → Bool) :
    Except PyErr (GreedyResult ⊕ IlpResult) :=
  if pyStartsWith (pyLower method) "ilp" then
    (ilp_optimize pt fees x).map Sum.inr
  else
    (greedy_optimize pt (some fees) none).map Sum.inl

/-- Well-formedness of one observation as greedy needs it: the `available`
field is present, and an available observation carries a numeric price.
An unavailable observation may lack the `price` field entirely. -/
def obsWFb (o : Obs) : Bool :=
  o.available.isSome &&
    (o.available != some true ||
      (match o.price with | some (some _) => true | _ => false))

/-- Well-formedness of a whole table, record by record. -/
def ptWFb (pt : PriceTable) : Bool :=
  pt.all (fun r => r.2.all (fun e => obsWFb e.2))

/-- Key-uniqueness of the modelled Python dicts: item keys and each item's
store keys are distinct. -/
def ptKeysNodup (pt : PriceTable) : Prop :=
  (itemsOf pt).Nodup ∧ ∀ r ∈ pt, (r.2.map Prod.fst).Nodup

/-- Usability in the sense of the data model: `available == true` and a
numeric price; returns the witnessing `(store, price)` pairs of a row. -/
def usableL (row : Row) : List (String × ℚ) :=
  row.filterMap (fun e =>
    match e.2.available, e.2.price with
    | some true, some (some q) => some (e.1, q)
    | _, _ => none)

instance : DecidablePred ptKeysNodup := fun pt => by
  unfold ptKeysNodup
  infer_instance

instance (pt : PriceTable) (x : String → String → Bool) (y : String → Bool) :
    Decidable (ilpFeasible pt x y) := by
  unfold ilpFeasible
  infer_instance

/-! ### Association-list and summation helpers -/

theorem lookup_eq_some_of_nodup {β : Type} {l : List (String × β)} {a : String}
    {b : β} (hn : (l.map Prod.fst).Nodup) (hm : (a, b) ∈ l) :
    l.lookup a = some b := by
  induction l with
  | nil => cases hm
  | cons hd tl ih =>
    simp only [List.map_cons, List.nodup_cons] at hn
    rcases List.mem_cons.1 hm with heq | hm
    · rw [← heq]
      simp [List.lookup]
    · have hb : (a == hd.1) = false := by
        apply beq_eq_false_iff_ne.2
        intro h
        exact hn.1 (by rw [← h]; exact List.mem_map.2 ⟨(a, b), hm, rfl⟩)
      simp only [List.lookup, hb]
      exact ih hn.2 hm

theorem countP_beq_one {l : List String} {a : String}
    (hn : l.Nodup) (hm : a ∈ l) :
    l.countP (fun s => a == s) = 1 := by
  induction l with
  | nil => cases hm
  | cons hd tl ih =>
    rw [List.nodup_cons] at hn
    rcases List.mem_cons.1 hm with heq | hm
    · have ha : a ∉ tl := by rw [heq]; exact hn.1
      have h0 : tl.countP (fun s => a == s) = 0 := by
        rw [List.countP_eq_zero]
        intro s hs
        simp only [beq_iff_eq]
        intro h
        rw [h] at ha
        exact ha hs
      have hbeq : (a == hd) = true := by rw [heq]; exact beq_self_eq_true hd
      simp [List.countP_cons, h0, hbeq]
    · have hne : (a == hd) = false :=
        beq_eq_false_iff_ne.2 (fun h => hn.1 (by rw [← h]; exact hm))
      simp [List.countP_cons, hne, ih hn.2 hm]

theorem sum_mul_ind_single {l : List String} {a : String} (f : String → ℚ)
    (hn : l.Nodup) (hm : a ∈ l) :
    ((l.map (fun s => f s * bind01 (a == s))).sum = f a) := by
  induction l with
  | nil => cases hm
  | cons hd tl ih =>
    rw [List.nodup_cons] at hn
    rcases List.mem_cons.1 hm with heq | hm
    · have ha : a ∉ tl := by rw [heq]; exact hn.1
      have h0 : (tl.map (fun s => f s * bind01 (a == s))).sum = 0 := by
        apply List.sum_eq_zero
        intro q hq
        rcases List.mem_map.1 hq with ⟨s, hs, rfl⟩
        have hf : (a == s) = false := by
          apply beq_eq_false_iff_ne.2
          intro h
          rw [h] at ha
          exact ha hs
        simp [hf, bind01]
      have hbeq : (a == hd) = true := by rw [heq]; exact beq_self_eq_true hd
      rw [List.map_cons, List.sum_cons, h0, hbeq, heq]
      simp [bind01]
    · have hne : (a == hd) = false :=
        beq_eq_false_iff_ne.2 (fun h => hn.1 (by rw [← h]; exact hm))
      rw [List.map_cons, List.sum_cons, ih hn.2 hm, hne]
      simp [bind01]

theorem sum_map_ite_filter {l : List String} (f : String → ℚ) (p : String → Bool) :
    ((l.map (fun s => if p s then f s else 0)).sum =
      ((l.filter p).map f).sum) := by
  induction l with
  | nil => rfl
  | cons hd tl ih =>
    by_cases h : p hd
    · simp [List.filter_cons, h, ih]
    · simp [List.filter_cons, h, ih]

/-! ### Greedy selection: structure lemmas -/

/-- The pure strict-`<` selection step underlying the greedy inner loop on
usable observations. -/
def selStep (b : Option (String × ℚ)) (u : String × ℚ) : Option (String × ℚ) :=
  match b with
  | none => some u
  | some (bs, bq) => if u.2 < bq then some u else some (bs, bq)

/-- The pure greedy selection over a list of usable `(store, price)` pairs. -/
def selMin (b : Option (String × ℚ)) (l : List (String × ℚ)) :
    Option (String × ℚ) :=
  l.foldl selStep b

/-- Re-encode a numeric best pair in the shape greedy's `best` variable has. -/
def encodeBest (b : Option (String × ℚ)) : GreedyVal :=
  b.map (fun u => (u.1, some u.2))

/-- Row-level well-formedness, record by record. -/
def rowWFb (row : Row) : Bool :=
  row.all (fun e => obsWFb e.2)

theorem greedyBestAux_wf_eq {row : Row} (hwf : rowWFb row = true)
    (b : Option (String × ℚ)) :
    greedyBestAux (encodeBest b) row = .ok (encodeBest (selMin b (usableL row))) := by
  induction row generalizing b with
  | nil => rfl
  | cons hd tl ih =>
    have hhd : obsWFb hd.2 = true := by
      have := (List.all_eq_true.1 hwf) hd (List.mem_cons_self hd tl)
      exact this
    have htl : rowWFb tl = true := by
      apply List.all_eq_true.2
      intro e he
      exact (List.all_eq_true.1 hwf) e (List.mem_cons_of_mem hd he)
    simp only [obsWFb, Bool.and_eq_true] at hhd
    rcases ho : hd.2.available with _ | av
    · rw [ho] at hhd
      simp at hhd
    · cases av with
      | false =>
        have hstep : bestStep (encodeBest b) hd.1 hd.2 = .ok (encodeBest b) := by
          simp [bestStep, ho]
        have husable : usableL (hd :: tl) = usableL tl := by
          simp [usableL, List.filterMap_cons, ho]
        rw [show (hd :: tl : Row) = hd :: tl from rfl]
        simp only [greedyBestAux, hstep, husable]
        exact ih htl b
      | true =>
        rw [ho] at hhd
        have hp : ∃ q, hd.2.price = some (some q) := by
          rcases hhd with ⟨-, hpr⟩
          rcases h2 : hd.2.price with _ | pq
          · rw [h2] at hpr; simp at hpr
          · rcases pq with _ | q
            · rw [h2] at hpr; simp at hpr
            · exact ⟨q, rfl⟩
        rcases hp with ⟨q, hq⟩
        have husable : usableL (hd :: tl) = (hd.1, q) :: usableL tl := by
          simp [usableL, List.filterMap_cons, ho, hq]
        have hstep : bestStep (encodeBest b) hd.1 hd.2 =
            .ok (encodeBest (selStep b (hd.1, q))) := by
          rcases b with _ | ⟨bs, bq⟩
          · simp [bestStep, ho, hq, encodeBest, selStep]
          · simp only [bestStep, ho, hq, encodeBest, selStep, Option.map_some]
            by_cases hlt : q < bq
            · simp [hlt]
            · simp [hlt]
        simp only [greedyBestAux, hstep, husable, selMin, List.foldl_cons]
        exact ih htl (selStep b (hd.1, q))

theorem greedyBest_wf_eq {row : Row} (hwf : rowWFb row = true) :
    greedyBest row = .ok (encodeBest (selMin none (usableL row))) :=
  greedyBestAux_wf_eq hwf none

/-- On a well-formed table, `greedy_optimize` succeeds and computes, for each
item in order, the pure strict-`<` selection over its usable observations. -/
theorem greedy_wf_eq {pt : PriceTable} (hwf : ptWFb pt = true)
    (fees : Option FeeTable) (m : Option Nat) :
    greedy_optimize pt fees m =
      .ok (pt.map (fun p => (p.1, encodeBest (selMin none (usableL p.2))))) := by
  show greedyRows pt = _
  induction pt with
  | nil => rfl
  | cons hd tl ih =>
    have hhd : rowWFb hd.2 = true :=
      (List.all_eq_true.1 hwf) hd (List.mem_cons_self hd tl)
    have htl : ptWFb tl = true := by
      apply List.all_eq_true.2
      intro e he
      exact (List.all_eq_true.1 hwf) e (List.mem_cons_of_mem hd he)
    simp only [greedyRows, greedyBest_wf_eq hhd, ih htl, List.map_cons]

theorem selMin_none_eq_none_iff (l : List (String × ℚ)) :
    selMin none l = none ↔ l = [] := by
  cases l with
  | nil => simp [selMin]
  | cons hd tl =>
    simp only [selMin, List.foldl_cons, selStep]
    constructor
    · intro h
      exfalso
      have : ∀ (b : String × ℚ) (t : List (String × ℚ)),
          t.foldl selStep (some b) ≠ none := by
        intro b t
        induction t generalizing b with
        | nil => simp
        | cons u tu ih =>
          simp only [List.foldl_cons, selStep]
          rcases b with ⟨bs, bq⟩
          by_cases hlt : u.2 < bq
          · simp only [if_pos hlt]; exact ih u
          · simp only [if_neg hlt]; exact ih (bs, bq)
      exact this hd tl h
    · intro h
      cases h

theorem selMin_some_spec (l : List (String × ℚ)) (b : String × ℚ) :
    ∃ c, selMin (some b) l = some c ∧
      ((c = b ∧ ∀ u ∈ l, b.2 ≤ u.2) ∨
        (∃ pre post, l = pre ++ c :: post ∧ c.2 < b.2 ∧
          (∀ u ∈ pre, c.2 < u.2) ∧ (∀ u ∈ post, c.2 ≤ u.2))) := by
  induction l generalizing b with
  | nil => exact ⟨b, rfl, Or.inl ⟨rfl, by simp⟩⟩
  | cons u t ih =>
    by_cases hlt : u.2 < b.2
    · have hstep : selMin (some b) (u :: t) = selMin (some u) t := by
        simp only [selMin, List.foldl_cons, selStep, if_pos hlt]
      rcases ih u with ⟨c, hc, hcase⟩
      refine ⟨c, by rw [hstep]; exact hc, Or.inr ?_⟩
      rcases hcase with ⟨rfl, hall⟩ | ⟨pre, post, rfl, hcb, hpre, hpost⟩
      · exact ⟨[], t, rfl, hlt, by simp, hall⟩
      · exact ⟨u :: pre, post, rfl, lt_trans hcb hlt,
          fun w hw => by
            rcases List.mem_cons.1 hw with rfl | hw
            · exact hcb
            · exact hpre w hw,
          hpost⟩
    · have hstep : selMin (some b) (u :: t) = selMin (some b) t := by
        simp only [selMin, List.foldl_cons, selStep, if_neg hlt]
      rcases ih b with ⟨c, hc, hcase⟩
      refine ⟨c, by rw [hstep]; exact hc, ?_⟩
      rcases hcase with ⟨rfl, hall⟩ | ⟨pre, post, heq, hcb, hpre, hpost⟩
      · exact Or.inl ⟨rfl, fun w hw => by
          rcases List.mem_cons.1 hw with rfl | hw
          · exact le_of_not_lt hlt
          · exact hall w hw⟩
      · exact Or.inr ⟨u :: pre, post, by rw [heq]; rfl, hcb,
          fun w hw => by
            rcases List.mem_cons.1 hw with rfl | hw
            · exact lt_of_lt_of_le hcb (le_of_not_lt hlt)
            · exact hpre w hw,
          hpost⟩

/-- `selMin` starting from `None` picks the first pair attaining the
minimum price: strictly smaller than everything before it, no larger than
everything after it. -/
theorem selMin_none_spec {l : List (String × ℚ)} {c : String × ℚ}
    (h : selMin none l = some c) :
    ∃ pre post, l = pre ++ c :: post ∧
      (∀ u ∈ pre, c.2 < u.2) ∧ (∀ u ∈ post, c.2 ≤ u.2) := by
  cases l with
  | nil => cases h
  | cons u t =>
    have hstep : selMin none (u :: t) = selMin (some u) t := by
      simp [selMin, List.foldl_cons, selStep]
    rw [hstep] at h
    rcases selMin_some_spec t u with ⟨c', hc', hcase⟩
    rw [hc'] at h
    cases h
    rcases hcase with ⟨rfl, hall⟩ | ⟨pre, post, rfl, hcb, hpre, hpost⟩
    · exact ⟨[], t, rfl, by simp, hall⟩
    · exact ⟨u :: pre, post, rfl, fun w hw => by
        rcases List.mem_cons.1 hw with rfl | hw
        · exact hcb
        · exact hpre w hw,
        hpost⟩

/-- The selected pair is a member attaining the minimum usable price. -/
theorem selMin_none_min {l : List (String × ℚ)} {c : String × ℚ}
    (h : selMin none l = some c) :
    c ∈ l ∧ ∀ u ∈ l, c.2 ≤ u.2 := by
  rcases selMin_none_spec h with ⟨pre, post, rfl, hpre, hpost⟩
  constructor
  · exact List.mem_append.2 (Or.inr (List.mem_cons_self c post))
  · intro u hu
    rcases List.mem_append.1 hu with hu | hu
    · exact le_of_lt (hpre u hu)
    · rcases List.mem_cons.1 hu with rfl | hu
      · exact le_refl _
      · exact hpost u hu

theorem greedyRows_ok_keys {pt : PriceTable} {g : GreedyResult}
    (h : greedyRows pt = .ok g) : g.map Prod.fst = pt.map Prod.fst := by
  induction pt generalizing g with
  | nil => cases h; rfl
  | cons hd tl ih =>
    rcases hd with ⟨item, row⟩
    simp only [greedyRows] at h
    rcases hb : greedyBest row with e | b
    · rw [hb] at h; cases h
    · rw [hb] at h
      rcases hr : greedyRows tl with e | r
      · rw [hr] at h; cases h
      · rw [hr] at h
        cases h
        simp [ih hr]

/-- `greedyRows` is computed item by item: splitting the table splits the
result. -/
theorem greedyRows_append {pt₁ pt₂ : PriceTable} {g₁ g₂ : GreedyResult}
    (h₁ : greedyRows pt₁ = .ok g₁) (h₂ : greedyRows pt₂ = .ok g₂) :
    greedyRows (pt₁ ++ pt₂) = .ok (g₁ ++ g₂) := by
  induction pt₁ generalizing g₁ with
  | nil => cases h₁; simpa using h₂
  | cons hd tl ih =>
    rcases hd with ⟨item, row⟩
    simp only [greedyRows] at h₁
    rcases hb : greedyBest row with e | b
    · rw [hb] at h₁; cases h₁
    · rw [hb] at h₁
      rcases hr : greedyRows tl with e | r
      · rw [hr] at h₁; cases h₁
      · rw [hr] at h₁
        cases h₁
        have ha : greedyRows (tl ++ pt₂) = .ok (r ++ g₂) := ih hr
        rw [List.cons_append]
        simp only [greedyRows, hb, List.append_eq, ha, List.cons_append]

/-- Any pair greedy ends up holding originates (relative to the starting
accumulator) from an actual record of the row that was available, with the
record's own price payload. -/
theorem greedyBestAux_origin {row : Row} {acc : GreedyVal} {v : String × Option ℚ}
    (h : greedyBestAux acc row = .ok (some v)) :
    acc = some v ∨
      ∃ o, (v.1, o) ∈ row ∧ o.available = some true ∧ o.price = some v.2 := by
  induction row generalizing acc with
  | nil => cases h; exact Or.inl rfl
  | cons hd tl ih =>
    simp only [greedyBestAux] at h
    rcases hs : bestStep acc hd.1 hd.2 with e | b
    · rw [hs] at h; cases h
    · rw [hs] at h
      rcases ih h with hacc | ⟨o, ho, hav, hp⟩
    
      · subst hacc
        simp only [bestStep] at hs
        rcases hav : hd.2.available with _ | av
        · rw [hav] at hs; cases hs
        · rw [hav] at hs
          cases av with
          | false =>
            simp only [Except.ok.injEq] at hs
            exact Or.inl hs
          | true =>
            rcases hpr : hd.2.price with _ | p
            · rw [hpr] at hs; cases hs
            · rw [hpr] at hs
              rcases acc with _ | ⟨bs, bp⟩
              · simp only [Except.ok.injEq, Option.some.injEq] at hs
                subst hs
                exact Or.inr ⟨hd.2, List.mem_cons_self hd tl, hav, hpr⟩
              · rcases p with _ | pq
                · cases hs
                · rcases bp with _ | bq
                  · cases hs
                  · simp only [] at hs
                    by_cases hlt : pq < bq
                    · rw [if_pos hlt] at hs
                      simp only [Except.ok.injEq, Option.some.injEq] at hs
                      subst hs
                      exact Or.inr ⟨hd.2, List.mem_cons_self hd tl, hav, hpr⟩
                    · rw [if_neg hlt] at hs
                      simp only [Except.ok.injEq, Option.some.injEq] at hs
                      exact Or.inl (by rw [← hs])
      · exact Or.inr ⟨o, List.mem_cons_of_mem hd ho, hav, hp⟩

/-- A row in which every record is explicitly unavailable makes the greedy
inner loop keep its accumulator untouched. -/
theorem greedyBestAux_all_unavail {row : Row} (acc : GreedyVal)
    (h : ∀ e ∈ row, e.2.available = some false) :
    greedyBestAux acc row = .ok acc := by
  induction row generalizing acc with
  | nil => rfl
  | cons hd tl ih =>
    have hhd := h hd (List.mem_cons_self hd tl)
    simp only [greedyBestAux, bestStep, hhd]
    exact ih acc (fun e he => h e (List.mem_cons_of_mem hd he))

/-! ### ILP model construction and extraction lemmas -/

theorem mem_pairsOf {pt : PriceTable} {i s : String} :
    (i, s) ∈ pairsOf pt ↔ i ∈ itemsOf pt ∧ s ∈ storesOf pt := by
  simp only [pairsOf, List.mem_flatten, List.mem_map]
  constructor
  · rintro ⟨l, ⟨j, hj, rfl⟩, hm⟩
    rcases List.mem_map.1 hm with ⟨t, ht, hts⟩
    cases hts
    exact ⟨hj, ht⟩
  · rintro ⟨hi, hs⟩
    exact ⟨(storesOf pt).map (fun s => (i, s)), ⟨i, hi, rfl⟩,
      List.mem_map.2 ⟨s, hs, rfl⟩⟩

theorem buildCostsAux_ok_costOf {pt : PriceTable}
    {l : List (String × String)} {cs : List ((String × String) × ℚ)}
    (h : buildCostsAux pt l = .ok cs) :
    ∀ p ∈ l, ∃ q, costOf pt p.1 p.2 = .ok q := by
  induction l generalizing cs with
  | nil => intro p hp; cases hp
  | cons hd tl ih =>
    rcases hd with ⟨i, s⟩
    simp only [buildCostsAux] at h
    rcases hc : costOf pt i s with e | q
    · rw [hc] at h; cases h
    · rw [hc] at h
      rcases hr : buildCostsAux pt tl with e | cs' 
      · rw [hr] at h; cases h
      · intro p hp
        rcases List.mem_cons.1 hp with rfl | hp
        · exact ⟨q, hc⟩
        · exact ih hr p hp

theorem buildCosts_ok_costOf {pt : PriceTable} {cs : List ((String × String) × ℚ)}
    (h : buildCosts pt = .ok cs) {i s : String}
    (hi : i ∈ itemsOf pt) (hs : s ∈ storesOf pt) :
    ∃ q, costOf pt i s = .ok q :=
  buildCostsAux_ok_costOf h (i, s) (mem_pairsOf.2 ⟨hi, hs⟩)

theorem buildCostsAux_ok_of_costOf {pt : PriceTable}
    {l : List (String × String)}
    (h : ∀ p ∈ l, ∃ q, costOf pt p.1 p.2 = .ok q) :
    ∃ cs, buildCostsAux pt l = .ok cs := by
  induction l with
  | nil => exact ⟨[], rfl⟩
  | cons hd tl ih =>
    rcases hd with ⟨i, s⟩
    rcases h (i, s) (List.mem_cons_self _ _) with ⟨q, hq⟩
    rcases ih (fun p hp => h p (List.mem_cons_of_mem _ hp)) with ⟨cs, hcs⟩
    exact ⟨((i, s), q) :: cs, by simp only [buildCostsAux, hq, hcs]⟩

theorem costOf_ok_lookup {pt : PriceTable} {i s : String} {q : ℚ}
    (h : costOf pt i s = .ok q) :
    ∃ o, (pt.lookup i).bind (fun row => row.lookup s) = some o ∧
      o.available.isSome := by
  unfold costOf at h
  rcases hl : (pt.lookup i).bind (fun row => row.lookup s) with _ | o
  · rw [hl] at h; cases h
  · rw [hl] at h
    dsimp only at h
    rcases ha : o.available with _ | av
    · rw [ha] at h; cases h
    · exact ⟨o, rfl, by rw [ha]; rfl⟩

/-- When a record exists and is available with a numeric price, the cost
coefficient is that price. -/
theorem costOf_available {pt : PriceTable} {i s : String} {o : Obs} {q : ℚ}
    (hl : (pt.lookup i).bind (fun row => row.lookup s) = some o)
    (ha : o.available = some true) (hp : o.price = some (some q)) :
    costOf pt i s = .ok q := by
  unfold costOf
  rw [hl]
  dsimp only
  rw [ha, hp]

/-- When a record exists and is explicitly unavailable, the cost coefficient
is the sentinel. -/
theorem costOf_unavailable {pt : PriceTable} {i s : String} {o : Obs}
    (hl : (pt.lookup i).bind (fun row => row.lookup s) = some o)
    (ha : o.available = some false) :
    costOf pt i s = .ok 1000000 := by
  unfold costOf
  rw [hl]
  dsimp only
  rw [ha]

theorem costOf_ok_price_shape {pt : PriceTable} {i s : String} {o : Obs} {q : ℚ}
    (h : costOf pt i s = .ok q)
    (hl : (pt.lookup i).bind (fun row => row.lookup s) = some o)
    (ha : o.available = some true) :
    o.price = some (some q) := by
  unfold costOf at h
  rw [hl] at h
  dsimp only at h
  rw [ha] at h
  rcases hp : o.price with _ | p
  · rw [hp] at h; cases h
  · rw [hp] at h
    rcases p with _ | pq
    · cases h
    · cases h
      rfl

theorem mem_of_lookup_eq_some {β : Type} {l : List (String × β)} {a : String}
    {b : β} (h : l.lookup a = some b) : (a, b) ∈ l := by
  induction l with
  | nil => cases h
  | cons hd tl ih =>
    rcases hb : (a == hd.1) with _ | _
    · simp only [List.lookup, hb] at h
      exact List.mem_cons_of_mem hd (ih h)
    · simp only [List.lookup, hb] at h
      cases h
      have : a = hd.1 := beq_iff_eq.1 hb
      rw [this]
      exact List.mem_cons_self hd tl

/-- Every record present in the table carries a `price` key
(whatever its value, including `None`). -/
def priceFieldb (pt : PriceTable) : Bool :=
  pt.all (fun r => r.2.all (fun e => e.2.price.isSome))

theorem extractPrice_ok {pt : PriceTable} {i s : String} {o : Obs}
    {p : Option ℚ}
    (hl : (pt.lookup i).bind (fun row => row.lookup s) = some o)
    (hp : o.price = some p) :
    extractPrice pt i s = .ok p := by
  unfold extractPrice
  rw [hl]
  dsimp only
  rw [hp]

theorem extractAux_ok {pt : PriceTable} {x : String → String → Bool}
    {i : String} {l : List String}
    (h : ∀ s ∈ l, x i s = true → ∃ p, extractPrice pt i s = .ok p) :
    ∀ acc, ∃ r, extractAux pt x i l acc = .ok r ∧
      (r.isSome = (acc.isSome || l.any (fun s => x i s))) := by
  induction l with
  | nil => intro acc; exact ⟨acc, rfl, by simp⟩
  | cons hd tl ih =>
    intro acc
    have htl : ∀ s ∈ tl, x i s = true → ∃ p, extractPrice pt i s = .ok p :=
      fun s hs => h s (List.mem_cons_of_mem hd hs)
    rcases hx : x i hd with _ | _
    · rcases ih htl acc with ⟨r, hr, hsome⟩
      refine ⟨r, ?_, ?_⟩
      · simp only [extractAux, hx]
        exact hr
      · simp [hsome, hx, List.any_cons]
    · rcases h hd (List.mem_cons_self hd tl) hx with ⟨p, hp⟩
      rcases ih htl (some (hd, p)) with ⟨r, hr, hsome⟩
      refine ⟨r, ?_, ?_⟩
      · simp only [extractAux, hx, if_true, hp]
        exact hr
      · simp [hsome, hx, List.any_cons]

theorem ilpExtractRows_keys {pt : PriceTable} {x : String → String → Bool}
    {il : List String}
    (h : ∀ i ∈ il, ∃ v, extractAux pt x i (storesOf pt) none = .ok (some v)) :
    ∃ res, ilpExtractRows pt x il = .ok res ∧ res.map Prod.fst = il := by
  induction il with
  | nil => exact ⟨[], rfl, rfl⟩
  | cons hd tl ih =>
    rcases h hd (List.mem_cons_self hd tl) with ⟨v, hv⟩
    rcases ih (fun i hi => h i (List.mem_cons_of_mem hd hi)) with ⟨res, hres, hkeys⟩
    refine ⟨(hd, v) :: res, ?_, by simp [hkeys]⟩
    simp only [ilpExtractRows, hv, hres]

/-- When construction succeeded, every record is present with a `price`
key, and the solver solution is feasible, extraction succeeds and returns
one entry per item, in item order. -/
theorem ilp_keys_of_feasible {pt : PriceTable} {fees : FeeTable}
    {x : String → String → Bool} {y : String → Bool}
    {cs : List ((String × String) × ℚ)}
    (hb : buildCosts pt = .ok cs) (hpf : priceFieldb pt = true)
    (hf : ilpFeasible pt x y) :
    ∃ r, ilp_optimize pt fees x = .ok r ∧ r.map Prod.fst = itemsOf pt := by
  have hext : ∀ i ∈ itemsOf pt, ∃ v,
      extractAux pt x i (storesOf pt) none = .ok (some v) := by
    intro i hi
    have hok : ∀ s ∈ storesOf pt, x i s = true →
        ∃ p, extractPrice pt i s = .ok p := by
      intro s hs _
      rcases buildCosts_ok_costOf hb hi hs with ⟨q, hq⟩
      rcases costOf_ok_lookup hq with ⟨o, hl, -⟩
      rcases hlr : pt.lookup i with _ | row
      · rw [hlr] at hl; cases hl
      · rw [hlr] at hl
        have hrm : (s, o) ∈ row := mem_of_lookup_eq_some hl
        have him : (i, row) ∈ pt := mem_of_lookup_eq_some hlr
        have : o.price.isSome = true := by
          have h1 := (List.all_eq_true.1 hpf) (i, row) him
          exact (List.all_eq_true.1 h1) (s, o) hrm
        rcases hp : o.price with _ | p
        · rw [hp] at this; cases this
        · exact ⟨p, extractPrice_ok (by rw [hlr]; exact hl) hp⟩
    have hone := hf.1 i hi
    have hpos : ∃ s ∈ storesOf pt, x i s = true := by
      apply List.countP_pos_iff.1
      rw [hone]
      exact Nat.zero_lt_one
    rcases extractAux_ok hok none with ⟨r, hr, hsome⟩
    have : r.isSome = true := by
      rw [hsome]
      simp only [Option.isSome_none, Bool.false_or]
      exact List.any_eq_true.2 (by
        rcases hpos with ⟨s, hs, hxs⟩
        exact ⟨s, hs, hxs⟩)
    rcases r with _ | v
    · cases this
    · exact ⟨v, hr⟩
  rcases ilpExtractRows_keys hext with ⟨res, hres, hkeys⟩
  refine ⟨res, ?_, hkeys⟩
  unfold ilp_optimize
  rw [hb]
  exact hres

/-! ### Objective-value helpers -/

theorem sum_map_flatten {α β : Type} (l : List α) (f : α → List β) (h : β → ℚ) :
    (((l.map f).flatten).map h).sum =
      (l.map (fun a => ((f a).map h).sum)).sum := by
  induction l with
  | nil => rfl
  | cons hd tl ih =>
    simp only [List.map_cons, List.flatten_cons, List.map_append,
      List.sum_append, List.sum_cons, ih]

theorem sum_map_filter_mem {l₁ l₂ : List String} (f : String → ℚ)
    (h₁ : l₁.Nodup) (h₂ : l₂.Nodup) (hsub : ∀ a ∈ l₂, a ∈ l₁) :
    ((l₁.filter (fun s => decide (s ∈ l₂))).map f).sum = (l₂.map f).sum := by
  have hperm : List.Perm (l₁.filter (fun s => decide (s ∈ l₂))) l₂ := by
    apply List.perm_of_nodup_nodup_toFinset_eq (h₁.filter _) h₂
    ext a
    simp only [List.mem_toFinset, List.mem_filter, decide_eq_true_eq]
    exact ⟨fun h => h.2, fun h => ⟨hsub a h, h⟩⟩
  exact (hperm.map f).sum_eq

theorem sum_flip {l : List String} {s : String} (hn : l.Nodup) (hs : s ∈ l)
    (f : String → ℚ) (y : String → Bool) :
    (l.map (fun t => f t * bind01 (if t = s then false else y t))).sum =
      (l.map (fun t => f t * bind01 (y t))).sum - f s * bind01 (y s) := by
  rcases List.append_of_mem hs with ⟨l₁, l₂, rfl⟩
  have hnotmem : s ∉ l₁ ∧ s ∉ l₂ := by
    rw [List.nodup_middle, List.nodup_cons, List.mem_append] at hn
    exact ⟨fun h => hn.1 (Or.inl h), fun h => hn.1 (Or.inr h)⟩
  have e₁ : l₁.map (fun t => f t * bind01 (if t = s then false else y t)) =
      l₁.map (fun t => f t * bind01 (y t)) := by
    apply List.map_congr_left
    intro t ht
    rw [if_neg (fun h => hnotmem.1 (by rw [← h]; exact ht))]
  have e₂ : l₂.map (fun t => f t * bind01 (if t = s then false else y t)) =
      l₂.map (fun t => f t * bind01 (y t)) := by
    apply List.map_congr_left
    intro t ht
    rw [if_neg (fun h => hnotmem.2 (by rw [← h]; exact ht))]
  have hb0 : bind01 false = 0 := rfl
  simp only [List.map_append, List.map_cons, List.sum_append, List.sum_cons,
    e₁, e₂, if_true, hb0]
  ring

theorem feeOf_nonneg {fees : FeeTable} (h : ∀ e ∈ fees, 0 ≤ e.2)
    (s : String) : 0 ≤ feeOf fees s := by
  unfold feeOf
  rcases hl : fees.lookup s with _ | v
  · simp
  · have := h (s, v) (mem_of_lookup_eq_some hl)
    simpa using this

theorem storesOf_nodup (pt : PriceTable) : (storesOf pt).Nodup :=
  List.nodup_dedup _

/-- C7: in every optimal solution of the Exact Assigner's model (with
non-negative delivery fees, as the DeliveryFeeTable data model requires),
the fee part of the objective equals the sum, over exactly the stores with
at least one assigned item, of that store's fee: each activated store's fee
is counted once, and stores with no assigned item contribute zero. -/
theorem claim_C7_fee_activation (pt : PriceTable) (fees : FeeTable)
    (x : String → String → Bool) (y : String → Bool)
    (hnn : ∀ e ∈ fees, 0 ≤ e.2)
    (hopt : ilpOptimal pt fees x y) :
    feeTerm pt fees y =
      (((storesOf pt).filter
        (fun s => (itemsOf pt).any (fun i => x i s))).map (feeOf fees)).sum := by
  have hfeas := hopt.1
  have hpoint : ∀ s ∈ storesOf pt,
      feeOf fees s * bind01 (y s) =
        if (itemsOf pt).any (fun i => x i s) then feeOf fees s else 0 := by
    intro s hs
    rcases hused : (itemsOf pt).any (fun i => x i s) with _ | _
    · rcases hy : y s with _ | _
      · simp [bind01, hused]
      · have hxall : ∀ i ∈ itemsOf pt, x i s = false := by
          intro i hi
          rcases hxi : x i s with _ | _
          · rfl
          · exact absurd (List.any_eq_true.2 ⟨i, hi, hxi⟩) (by rw [hused]; simp)
        have hflip : ilpFeasible pt x (fun t => if t = s then false else y t) := by
          refine ⟨hfeas.1, ?_⟩
          intro i hi t ht hxt
          by_cases hts : t = s
          · exfalso
            rw [hts] at hxt
            rw [hxall i hi] at hxt
            cases hxt
          · show (if t = s then false else y t) = true
            rw [if_neg hts]
            exact hfeas.2 i hi t ht hxt
        have hle := hopt.2 x _ hflip
        have hobj : ilpObj pt fees x (fun t => if t = s then false else y t) =
            ilpObj pt fees x y - feeOf fees s * bind01 (y s) := by
          unfold ilpObj feeTerm
          rw [sum_flip (storesOf_nodup pt) hs (feeOf fees) y]
          ring
        rw [hobj] at hle
        have h1 : feeOf fees s * bind01 (y s) ≤ 0 := by linarith
        rw [hy] at h1
        have h2 : feeOf fees s ≤ 0 := by simpa [bind01] using h1
        have h3 : feeOf fees s = 0 := le_antisymm h2 (feeOf_nonneg hnn s)
        simp [bind01, hused, hy, h3]
    · rcases List.any_eq_true.1 hused with ⟨i, hi, hxi⟩
      have hy : y s = true := hfeas.2 i hi s hs hxi
      simp [bind01, hy, hused]
  unfold feeTerm
  rw [List.map_congr_left hpoint]
  exact sum_map_ite_filter (feeOf fees) _

/-! ### Concrete instances and single-pair optimality -/

theorem obj_single {pt : PriceTable} {fees : FeeTable} {i : String} {s : String}
    (hi : itemsOf pt = [i]) (hs : storesOf pt = [s])
    {x : String → String → Bool} {y : String → Bool}
    (hf : ilpFeasible pt x y) :
    ilpObj pt fees x y = costQ pt i s + feeOf fees s := by
  have h1 : x i s = true := by
    have hc := hf.1 i (by rw [hi]; exact List.mem_cons_self _ _)
    rw [hs] at hc
    rcases hx : x i s with _ | _
    · rw [List.countP_cons, List.countP_nil, hx] at hc
      simp at hc
    · rfl
  have h2 : y s = true :=
    hf.2 i (by rw [hi]; simp) s (by rw [hs]; simp) h1
  unfold ilpObj itemTerm feeTerm pairsOf
  rw [hi, hs]
  simp [h1, h2, bind01]

/-- In an instance with a single item and a single store, every feasible
solution has the same objective value, hence is optimal. -/
theorem optimal_single {pt : PriceTable} {fees : FeeTable} {i : String}
    {s : String} (hi : itemsOf pt = [i]) (hs : storesOf pt = [s])
    {x : String → String → Bool} {y : String → Bool}
    (hf : ilpFeasible pt x y) : ilpOptimal pt fees x y :=
  ⟨hf, fun x' y' hf' => by rw [obj_single hi hs hf, obj_single hi hs hf']⟩

/-- Single item, single available record with numeric price 5, fee 2. -/
def ptSingleAvail : PriceTable := [("i", [("A", ⟨some (some 5), some true⟩)])]

def feesSingle : FeeTable := [("A", 2)]

/-- Single item "x" whose only record (store "A", recorded price 7) is
explicitly unavailable. -/
def ptUnavail : PriceTable := [("x", [("A", ⟨some (some 7), some false⟩)])]

/-- A solver solution selecting everything. -/
def xAll : String → String → Bool := fun _ _ => true

def yAll : String → Bool := fun _ => true

/-- Witness for C7 at a concrete instance: one item, one store at price 5
with fee 2, all fees non-negative; the all-ones solution is optimal and the
fee term equals the fee of the single activated store. -/
theorem claim_C7_fee_activation_witness :
    (∀ e ∈ feesSingle, 0 ≤ e.2) ∧
    feeTerm ptSingleAvail feesSingle yAll =
      (((storesOf ptSingleAvail).filter
        (fun s => (itemsOf ptSingleAvail).any (fun i => xAll i s))).map
          (feeOf feesSingle)).sum := by
  refine ⟨by decide, claim_C7_fee_activation ptSingleAvail feesSingle xAll yAll
    (by decide) ?_⟩
  exact optimal_single (show itemsOf ptSingleAvail = ["i"] from rfl)
    (show storesOf ptSingleAvail = ["A"] from rfl) (by decide)

/-! ### Claims C9 and C5: parameters and dispatch -/

/-- C9: the `max_stores` parameter of `greedy_optimize` is accepted but
never read, so the result is identical for any two values of it. -/
theorem claim_C9_max_stores_unused (pt : PriceTable) (fees : Option FeeTable)
    (m₁ m₂ : Option Nat) :
    greedy_optimize pt fees m₁ = greedy_optimize pt fees m₂ := rfl

/-- C5 (amended): neither dispatcher raises on an unrecognized method.
`optimize_cart` runs the ILP for every method other than `"greedy"`, and
`OptimizerTool._run` runs greedy for every method whose lowercasing does
not start with `"ilp"`; there is no error branch. -/
theorem claim_C5_dispatch_fallback (pt : PriceTable) (method : String)
    (fees : FeeTable) (x : String → String → Bool) :
    (method ≠ "greedy" →
      optimize_cart pt method fees x = (ilp_optimize pt fees x).map Sum.inr) ∧
    (pyStartsWith (pyLower method) "ilp" = false →
      optimizerTool_run pt method fees x =
        (greedy_optimize pt (some fees) none).map Sum.inl) := by
  constructor
  · intro h
    unfold optimize_cart
    rw [if_neg h]
  · intro h
    unfold optimizerTool_run
    rw [if_neg (by simp [h])]

/-- Witness for C5 at the unrecognized selector `"banana"`. -/
theorem claim_C5_dispatch_fallback_witness :
    ("banana" ≠ "greedy" ∧
      optimize_cart ptSingleAvail "banana" feesSingle xAll =
        (ilp_optimize ptSingleAvail feesSingle xAll).map Sum.inr) ∧
    (pyStartsWith (pyLower "banana") "ilp" = false ∧
      optimizerTool_run ptSingleAvail "banana" feesSingle xAll =
        (greedy_optimize ptSingleAvail (some feesSingle) none).map Sum.inl) := by
  refine ⟨⟨by decide, ?_⟩, ⟨by decide, ?_⟩⟩
  · exact (claim_C5_dispatch_fallback ptSingleAvail "banana" feesSingle xAll).1
      (by decide)
  · exact (claim_C5_dispatch_fallback ptSingleAvail "banana" feesSingle xAll).2
      (by decide)

/-- C5 counterexample: on the unrecognized selector `"banana"`,
`optimize_cart` silently runs the ILP and `OptimizerTool._run` silently
runs greedy; neither raises a hard error as the claim requires. -/
theorem claim_C5_counterexample :
    optimize_cart ptSingleAvail "banana" feesSingle xAll =
      .ok (Sum.inr [("i", ("A", some 5))]) ∧
    optimizerTool_run ptSingleAvail "banana" feesSingle xAll =
      .ok (Sum.inl [("i", some ("A", some 5))]) := by
  constructor <;> rfl

/-! ### Claims C6 and C3: malformed records and model construction -/

/-- ILP-side well-formedness: every item has a record for every store
appearing anywhere in the table, and each such record is observation-level
well-formed. -/
def ilpWFb (pt : PriceTable) : Bool :=
  (itemsOf pt).all (fun i => (storesOf pt).all (fun s =>
    match (pt.lookup i).bind (fun row => row.lookup s) with
    | none => false
    | some o => obsWFb o))

theorem buildCosts_ok_of_ilpWF {pt : PriceTable} (h : ilpWFb pt = true) :
    ∃ cs, buildCosts pt = .ok cs := by
  apply buildCostsAux_ok_of_costOf
  intro p hp
  rcases mem_pairsOf.1 hp with ⟨hi, hs⟩
  have hws := (List.all_eq_true.1 ((List.all_eq_true.1 h) p.1 hi)) p.2 hs
  rcases hl : (pt.lookup p.1).bind (fun row => row.lookup p.2) with _ | o
  · rw [hl] at hws; cases hws
  · rw [hl] at hws
    simp only [obsWFb, Bool.and_eq_true] at hws
    rcases ha : o.available with _ | av
    · rw [ha] at hws; simp at hws
    · cases av with
      | false => exact ⟨1000000, costOf_unavailable hl ha⟩
      | true =>
        rw [ha] at hws
        rcases hp2 : o.price with _ | pq
        · rw [hp2] at hws; simp at hws
        · rcases pq with _ | q
          · rw [hp2] at hws; simp at hws
          · exact ⟨q, costOf_available hl ha hp2⟩

theorem greedy_error_of_missing_avail (i s : String) (o : Obs)
    (pt' : PriceTable) (fees : Option FeeTable) (m : Option Nat)
    (ho : o.available = none) :
    greedy_optimize ((i, [(s, o)]) :: pt') fees m = .error .keyError := by
  show greedyRows _ = _
  have hb : greedyBest [(s, o)] = .error .keyError := by
    simp [greedyBest, greedyBestAux, bestStep, ho]
  simp [greedyRows, hb]

/-- If every cost term of the first item fails with error `e` and the store
list is nonempty, model construction fails with `e`. -/
theorem buildCosts_error_head {i : String} {row : Row} {tl : PriceTable}
    {e : PyErr}
    (hne : storesOf ((i, row) :: tl) ≠ [])
    (hc : ∀ t ∈ storesOf ((i, row) :: tl),
      costOf ((i, row) :: tl) i t = .error e) :
    buildCosts ((i, row) :: tl) = .error e := by
  unfold buildCosts pairsOf
  rcases hst : storesOf ((i, row) :: tl) with _ | ⟨s₀, srest⟩
  · exact absurd hst hne
  · have hmem : s₀ ∈ storesOf ((i, row) :: tl) := by
      rw [hst]; exact List.mem_cons_self _ _
    have hit : itemsOf ((i, row) :: tl) = i :: itemsOf tl := rfl
    rw [hit, List.map_cons, List.flatten_cons, List.map_cons,
      List.cons_append]
    simp only [buildCostsAux, hc s₀ hmem]

theorem ilp_error_of_missing_avail (i s : String) (o : Obs)
    (pt' : PriceTable) (fees : FeeTable) (x : String → String → Bool)
    (ho : o.available = none) :
    ilp_optimize ((i, [(s, o)]) :: pt') fees x = .error .keyError := by
  have hcost : ∀ t ∈ storesOf ((i, [(s, o)]) :: pt'),
      costOf ((i, [(s, o)]) :: pt') i t = .error .keyError := by
    intro t _
    have hbind : ((((i, [(s, o)]) :: pt').lookup i).bind
        (fun row => row.lookup t)) =
        if (t == s) = true then some o else none := by
      rcases hbe : (t == s) with _ | _
      · simp [List.lookup, hbe]
      · simp [List.lookup, hbe]
    unfold costOf
    rw [hbind]
    by_cases hbe : (t == s) = true
    · rw [if_pos hbe]
      dsimp only
      rw [ho]
    · rw [if_neg hbe]
  have hmem : s ∈ storesOf ((i, [(s, o)]) :: pt') := by
    simp [storesOf, List.mem_dedup, List.mem_flatten]
  have hne : storesOf ((i, [(s, o)]) :: pt') ≠ [] := by
    intro h
    rw [h] at hmem
    cases hmem
  have hb := buildCosts_error_head hne hcost
  unfold ilp_optimize
  rw [hb]

/-- C6 (amended): a record missing the `available` field makes both
assigners raise `KeyError` instead of treating the observation as
unusable; on the other hand a record with `available == false` and a
missing `price` field is tolerated: greedy completes on any well-formed
table (`ptWFb`, which permits unavailable records without a price), and
ILP model construction completes on any `ilpWFb` table likewise. -/
theorem claim_C6_missing_field_behavior :
    (∀ (i s : String) (o : Obs) (pt' : PriceTable) (fees : Option FeeTable)
        (m : Option Nat) (fees₂ : FeeTable) (x : String → String → Bool),
      o.available = none →
        greedy_optimize ((i, [(s, o)]) :: pt') fees m = .error .keyError ∧
        ilp_optimize ((i, [(s, o)]) :: pt') fees₂ x = .error .keyError) ∧
    (∀ (pt : PriceTable) (fees : Option FeeTable) (m : Option Nat),
      ptWFb pt = true → ∃ g, greedy_optimize pt fees m = .ok g) ∧
    (∀ pt : PriceTable, ilpWFb pt = true → ∃ cs, buildCosts pt = .ok cs) := by
  refine ⟨?_, ?_, ?_⟩
  · intro i s o pt' fees m fees₂ x ho
    exact ⟨greedy_error_of_missing_avail i s o pt' fees m ho,
      ilp_error_of_missing_avail i s o pt' fees₂ x ho⟩
  · intro pt fees m hwf
    exact ⟨_, greedy_wf_eq hwf fees m⟩
  · intro pt h
    exact buildCosts_ok_of_ilpWF h

/-- A table containing an unavailable record with no `price` field at all,
next to a normal record: used to witness the tolerated case of C6. -/
def ptNoPriceField : PriceTable :=
  [("x", [("A", ⟨none, some false⟩), ("B", ⟨some (some 4), some true⟩)])]

/-- Witness for C6: a record with `available` missing triggers `KeyError`
in both assigners, while a table whose only defect is a missing `price` on
an unavailable record passes both well-formedness conditions, so both
greedy and ILP construction complete on it. -/
theorem claim_C6_missing_field_behavior_witness :
    ((⟨some (some 5), none⟩ : Obs).available = none ∧
      greedy_optimize [("x", [("A", ⟨some (some 5), none⟩)])] none none =
        .error .keyError ∧
      ilp_optimize [("x", [("A", ⟨some (some 5), none⟩)])] [] xAll =
        .error .keyError) ∧
    (ptWFb ptNoPriceField = true ∧
      ∃ g, greedy_optimize ptNoPriceField none none = .ok g) ∧
    (ilpWFb ptNoPriceField = true ∧
      ∃ cs, buildCosts ptNoPriceField = .ok cs) := by
  refine ⟨⟨rfl, ?_⟩, ⟨by decide, ?_⟩, ⟨by decide, ?_⟩⟩
  · exact claim_C6_missing_field_behavior.1 "x" "A" ⟨some (some 5), none⟩ []
      none none [] xAll rfl
  · exact claim_C6_missing_field_behavior.2.1 ptNoPriceField none none
      (by decide)
  · exact claim_C6_missing_field_behavior.2.2 ptNoPriceField (by decide)

/-- C6 counterexample: the claim says a record missing the `available`
field is treated as unusable and both assigners complete normally; in fact
both raise `KeyError` on such a record. -/
theorem claim_C6_counterexample :
    greedy_optimize [("x", [("A", ⟨some (some 5), none⟩)])] none none =
      .error .keyError ∧
    ilp_optimize [("x", [("A", ⟨some (some 5), none⟩)])] [] xAll =
      .error .keyError := by
  constructor <;> rfl

/-- C3 (amended): the objective is built over every pair of an item and a
store appearing anywhere in the table, with coefficient the observed price
for an available record and the sentinel `1e6` for an unavailable one; but
model construction succeeds only when every item has a record for every
such store (and every available record a numeric price) — a missing
record raises `KeyError` instead of receiving the sentinel. -/
theorem claim_C3_cost_coefficients :
    (∀ (pt : PriceTable) (i s : String) (o : Obs),
      (pt.lookup i).bind (fun row => row.lookup s) = some o →
        (o.available = some false → costOf pt i s = .ok 1000000) ∧
        (∀ q, o.available = some true → o.price = some (some q) →
          costOf pt i s = .ok q)) ∧
    (∀ pt : PriceTable, ilpWFb pt = true → ∃ cs, buildCosts pt = .ok cs) ∧
    (∀ (pt : PriceTable) (i s : String),
      (pt.lookup i).bind (fun row => row.lookup s) = none →
        costOf pt i s = .error .keyError) := by
  refine ⟨?_, ?_, ?_⟩
  · intro pt i s o hl
    exact ⟨fun ha => costOf_unavailable hl ha,
      fun q ha hp => costOf_available hl ha hp⟩
  · intro pt h
    exact buildCosts_ok_of_ilpWF h
  · intro pt i s hl
    unfold costOf
    rw [hl]

/-- Two items sold at disjoint stores: item `i1` has no record for store
`B`, so the objective comprehension hits `price_table["i1"]["B"]`. -/
def ptDisjoint : PriceTable :=
  [("i1", [("A", ⟨some (some 3), some true⟩)]),
   ("i2", [("B", ⟨some (some 4), some true⟩)])]

/-- C3 counterexample: model construction does not succeed on every
PriceTable — with items whose store sets differ, `ilp_optimize` raises
`KeyError` instead of assigning the missing pair the sentinel cost. -/
theorem claim_C3_counterexample :
    ilp_optimize ptDisjoint [] xAll = .error .keyError := rfl

/-- Witness for C3: an explicit unavailable record receives the sentinel
coefficient, an available one its price, a missing record `KeyError`, and a
record-total table builds successfully. -/
theorem claim_C3_cost_coefficients_witness :
    ((ptUnavail.lookup "x").bind (fun row => row.lookup "A") =
        some ⟨some (some 7), some false⟩ ∧
      costOf ptUnavail "x" "A" = .ok 1000000) ∧
    (costOf ptSingleAvail "i" "A" = .ok 5) ∧
    ((ptDisjoint.lookup "i1").bind (fun row => row.lookup "B") = none ∧
      costOf ptDisjoint "i1" "B" = .error .keyError) ∧
    (ilpWFb ptSingleAvail = true ∧ ∃ cs, buildCosts ptSingleAvail = .ok cs) := by
  refine ⟨⟨rfl, ?_⟩, ?_, ⟨rfl, ?_⟩, ⟨rfl, ?_⟩⟩
  · exact (claim_C3_cost_coefficients.1 ptUnavail "x" "A"
      ⟨some (some 7), some false⟩ rfl).1 rfl
  · exact (claim_C3_cost_coefficients.1 ptSingleAvail "i" "A"
      ⟨some (some 5), some true⟩ rfl).2 5 rfl rfl
  · exact claim_C3_cost_coefficients.2.2 ptDisjoint "i1" "B" rfl
  · exact claim_C3_cost_coefficients.2.1 ptSingleAvail (by decide)

/-! ### Claims C2 and C10: greedy per-item minimum and tie-breaking -/

/-- C2 (amended): on a well-formed table — every record has its
`available` field and every available record a numeric price — greedy
succeeds, and per item (aligned in order) it returns `None` when the item
has no usable observation, else a `(store, price)` pair whose price is the
minimum over exactly the usable observations of that item.  (On tables
with an available record whose price is `None`, greedy may instead select
that record or raise `TypeError`; see the counterexample.) -/
theorem claim_C2_greedy_min (pt : PriceTable) (fees : Option FeeTable)
    (m : Option Nat) (hwf : ptWFb pt = true) :
    ∃ g, greedy_optimize pt fees m = .ok g ∧
      List.Forall₂ (fun (p : String × Row) (r : String × GreedyVal) =>
        r.1 = p.1 ∧
        ((usableL p.2 = [] ∧ r.2 = none) ∨
          (∃ s q, r.2 = some (s, some q) ∧ (s, q) ∈ usableL p.2 ∧
            ∀ u ∈ usableL p.2, q ≤ u.2))) pt g := by
  refine ⟨_, greedy_wf_eq hwf fees m, ?_⟩
  rw [List.forall₂_map_right_iff]
  rw [List.forall₂_same]
  intro p _
  refine ⟨rfl, ?_⟩
  rcases hsel : selMin none (usableL p.2) with _ | c
  · exact Or.inl ⟨(selMin_none_eq_none_iff _).1 hsel, rfl⟩
  · rcases selMin_none_min hsel with ⟨hmem, hmin⟩
    exact Or.inr ⟨c.1, c.2, rfl, hmem, hmin⟩

/-- A single available record with a Python-`None` price: the claim says
it must never be selected; greedy selects it. -/
def ptNonePrice : PriceTable := [("it", [("A", ⟨some none, some true⟩)])]

/-- An available `None`-price record followed by a usable one: comparing
`None < 5` raises `TypeError`. -/
def ptNoneThenNum : PriceTable :=
  [("it", [("A", ⟨some none, some true⟩), ("B", ⟨some (some 5), some true⟩)])]

/-- C2 counterexample: an observation with `available == true` and
`price == None` is selected by greedy (so it is not excluded from
consideration), and in the presence of a further usable observation the
comparison with `None` raises `TypeError` rather than completing. -/
theorem claim_C2_counterexample :
    greedy_optimize ptNonePrice none none = .ok [("it", some ("A", none))] ∧
    greedy_optimize ptNoneThenNum none none = .error .typeError := by
  constructor <;> rfl

/-- Witness for C2 on the Scenario D table. -/
theorem claim_C2_greedy_min_witness :
    ptWFb [("milk", [("A", (⟨some (some 50), some true⟩ : Obs)),
                     ("B", ⟨some (some 48), some true⟩)])] = true ∧
    ∃ g, greedy_optimize [("milk", [("A", (⟨some (some 50), some true⟩ : Obs)),
                     ("B", ⟨some (some 48), some true⟩)])] none none = .ok g ∧
      List.Forall₂ (fun (p : String × Row) (r : String × GreedyVal) =>
        r.1 = p.1 ∧
        ((usableL p.2 = [] ∧ r.2 = none) ∨
          (∃ s q, r.2 = some (s, some q) ∧ (s, q) ∈ usableL p.2 ∧
            ∀ u ∈ usableL p.2, q ≤ u.2)))
        [("milk", [("A", (⟨some (some 50), some true⟩ : Obs)),
                   ("B", ⟨some (some 48), some true⟩)])] g :=
  ⟨by decide, claim_C2_greedy_min _ none none (by decide)⟩

/-- C10: on a well-formed table, whenever greedy returns a pair for an
item, that pair is the first usable observation attaining the minimum
price: every earlier usable observation is strictly more expensive and
every later one at least as expensive, because the strict `<` update never
replaces the incumbent on a tie. -/
theorem claim_C10_tie_break (pt : PriceTable) (fees : Option FeeTable)
    (m : Option Nat) (hwf : ptWFb pt = true) :
    ∃ g, greedy_optimize pt fees m = .ok g ∧
      List.Forall₂ (fun (p : String × Row) (r : String × GreedyVal) =>
        r.1 = p.1 ∧
        ∀ s q, r.2 = some (s, some q) →
          ∃ pre post, usableL p.2 = pre ++ (s, q) :: post ∧
            (∀ u ∈ pre, q < u.2) ∧ (∀ u ∈ post, q ≤ u.2)) pt g := by
  refine ⟨_, greedy_wf_eq hwf fees m, ?_⟩
  rw [List.forall₂_map_right_iff]
  rw [List.forall₂_same]
  intro p _
  refine ⟨rfl, ?_⟩
  intro s q hr
  rcases hsel : selMin none (usableL p.2) with _ | c
  · rw [hsel] at hr
    simp [encodeBest] at hr
  · rw [hsel] at hr
    have hr' : some (c.1, some c.2) = some (s, some q) := hr
    simp only [Option.some.injEq, Prod.mk.injEq] at hr'
    have hc : c = (s, q) := Prod.ext hr'.1 hr'.2
    rw [hc] at hsel
    exact selMin_none_spec hsel

/-- A tie between two stores at price 5: greedy keeps the first. -/
def ptTie : PriceTable :=
  [("it", [("A", ⟨some (some 5), some true⟩), ("B", ⟨some (some 5), some true⟩)])]

/-- Witness for C10 on a table with a price tie. -/
theorem claim_C10_tie_break_witness :
    ptWFb ptTie = true ∧
    ∃ g, greedy_optimize ptTie none none = .ok g ∧
      List.Forall₂ (fun (p : String × Row) (r : String × GreedyVal) =>
        r.1 = p.1 ∧
        ∀ s q, r.2 = some (s, some q) →
          ∃ pre post, usableL p.2 = pre ++ (s, q) :: post ∧
            (∀ u ∈ pre, q < u.2) ∧ (∀ u ∈ post, q ≤ u.2)) ptTie g :=
  ⟨by decide, claim_C10_tie_break ptTie none none (by decide)⟩

/-! ### Claim C8: output keys -/

/-- C8 (amended): whenever greedy completes, its result has exactly the
item keys of the input, in input order; the same holds for ILP extraction
whenever model construction succeeded, every record carries a `price` key
and the solver returned a feasible assignment; and empty input yields an
empty result for both.  However an item with no stores at all is silently
dropped by `ilp_optimize` (see the counterexample), so the claim does not
hold for every PriceTable. -/
theorem claim_C8_result_keys :
    (∀ (pt : PriceTable) (fees : Option FeeTable) (m : Option Nat)
        (g : GreedyResult),
      greedy_optimize pt fees m = .ok g → g.map Prod.fst = itemsOf pt) ∧
    (∀ (pt : PriceTable) (fees : FeeTable) (x : String → String → Bool)
        (y : String → Bool) (cs : List ((String × String) × ℚ)),
      buildCosts pt = .ok cs → priceFieldb pt = true → ilpFeasible pt x y →
      ∃ r, ilp_optimize pt fees x = .ok r ∧ r.map Prod.fst = itemsOf pt) ∧
    (∀ (fees : Option FeeTable) (m : Option Nat) (fees₂ : FeeTable)
        (x : String → String → Bool),
      greedy_optimize [] fees m = .ok [] ∧ ilp_optimize [] fees₂ x = .ok []) := by
  refine ⟨?_, ?_, ?_⟩
  · intro pt fees m g hg
    exact greedyRows_ok_keys hg
  · intro pt fees x y cs hb hpf hf
    exact ilp_keys_of_feasible hb hpf hf
  · intro fees m fees₂ x
    exact ⟨rfl, rfl⟩

/-- An item with an empty store map. -/
def ptNoStores : PriceTable := [("a", [])]

/-- C8 counterexample: on a table whose single item has no stores,
`ilp_optimize` returns an empty assignment — the item key is missing from
the output, contradicting "exactly the item keys of the input". (The model
is also infeasible there: the item's assignment constraint sums over no
variables.) -/
theorem claim_C8_counterexample :
    ilp_optimize ptNoStores [] xAll = .ok [] ∧ itemsOf ptNoStores = ["a"] := by
  constructor <;> rfl

/-- Witness for C8 at concrete instances. -/
theorem claim_C8_result_keys_witness :
    ([("i", (some ("A", some 5) : GreedyVal))].map Prod.fst =
      itemsOf ptSingleAvail) ∧
    (∃ r, ilp_optimize ptSingleAvail feesSingle xAll = .ok r ∧
      r.map Prod.fst = itemsOf ptSingleAvail) := by
  constructor
  · exact claim_C8_result_keys.1 ptSingleAvail none none _ rfl
  · exact claim_C8_result_keys.2.1 ptSingleAvail feesSingle xAll yAll _ rfl rfl
      (by decide)

/-! ### Claim C1: items with no usable observation -/

/-- C1 (amended): greedy returns `None` exactly for an item all of whose
records are explicitly unavailable, leaving every other item's result
untouched (the rest of the output is exactly greedy of the remaining
table); `ilp_optimize`, however, never converts the sentinel assignment to
`None` — whenever construction succeeds and the solver returns a feasible
assignment, every item (including one with no usable observation) receives
a `(store, recorded-price)` pair. -/
theorem claim_C1_unusable_items :
    (∀ (pre post : PriceTable) (i : String) (row : Row)
        (fees : Option FeeTable) (m : Option Nat) (g₁ g₂ : GreedyResult),
      (∀ e ∈ row, e.2.available = some false) →
      greedyRows pre = .ok g₁ → greedyRows post = .ok g₂ →
      greedy_optimize (pre ++ (i, row) :: post) fees m =
        .ok (g₁ ++ (i, none) :: g₂)) ∧
    (∀ (pt : PriceTable) (fees : FeeTable) (x : String → String → Bool)
        (y : String → Bool) (cs : List ((String × String) × ℚ)),
      buildCosts pt = .ok cs → priceFieldb pt = true → ilpFeasible pt x y →
      ∃ r, ilp_optimize pt fees x = .ok r ∧
        ∀ i ∈ itemsOf pt, ∃ s p, (i, (s, p)) ∈ r) := by
  constructor
  · intro pre post i row fees m g₁ g₂ hun h1 h2
    have hb : greedyBest row = .ok none := greedyBestAux_all_unavail none hun
    have hmid : greedyRows ((i, row) :: post) = .ok ((i, none) :: g₂) := by
      simp only [greedyRows, hb, h2]
    exact greedyRows_append h1 hmid
  · intro pt fees x y cs hb hpf hf
    rcases ilp_keys_of_feasible hb hpf hf with ⟨r, hr, hkeys⟩
    refine ⟨r, hr, ?_⟩
    intro i hi
    rw [← hkeys] at hi
    rcases List.mem_map.1 hi with ⟨e, he, hei⟩
    refine ⟨e.2.1, e.2.2, ?_⟩
    rw [← hei]
    exact he

/-- C1 counterexample.  Greedy side: an item whose only observation is
available with price `None` has no usable observation, yet greedy returns
the pair `("A", None)` rather than `None`.  ILP side: an item whose only
record is unavailable must still be assigned; the optimal (indeed only
feasible) solution yields the pair `("A", 7)` — the extraction never
detects the sentinel and never outputs `None`. -/
theorem claim_C1_counterexample :
    (usableL [("A", (⟨some none, some true⟩ : Obs))] = [] ∧
      greedy_optimize ptNonePrice none none = .ok [("it", some ("A", none))]) ∧
    (usableL [("A", (⟨some (some 7), some false⟩ : Obs))] = [] ∧
      ilpOptimal ptUnavail [] xAll yAll ∧
      ilp_optimize ptUnavail [] xAll = .ok [("x", ("A", some 7))]) := by
  refine ⟨⟨rfl, rfl⟩, ⟨rfl, ?_, rfl⟩⟩
  exact optimal_single (show itemsOf ptUnavail = ["x"] from rfl)
    (show storesOf ptUnavail = ["A"] from rfl) (by decide)

/-- Witness for C1 at concrete instances. -/
theorem claim_C1_unusable_items_witness :
    ((∀ e ∈ [("A", (⟨some (some 7), some false⟩ : Obs))],
        e.2.available = some false) ∧
      greedy_optimize ([] ++ ("x", [("A", (⟨some (some 7), some false⟩ : Obs))])
          :: []) none none = .ok ([] ++ ("x", (none : GreedyVal)) :: [])) ∧
    (∃ r, ilp_optimize ptSingleAvail feesSingle xAll = .ok r ∧
      ∀ i ∈ itemsOf ptSingleAvail, ∃ s p, (i, (s, p)) ∈ r) := by
  refine ⟨⟨by decide, ?_⟩, ?_⟩
  · exact claim_C1_unusable_items.1 [] [] "x" _ none none [] [] (by decide)
      rfl rfl
  · exact claim_C1_unusable_items.2 ptSingleAvail feesSingle xAll yAll _ rfl
      rfl (by decide)

/-! ### Claim C4: Exact vs Greedy total cost -/

theorem bind01_nonneg (b : Bool) : 0 ≤ bind01 b := by
  cases b <;> simp [bind01]

theorem greedyRows_ok_entry {pt : PriceTable} {g : GreedyResult}
    (h : greedyRows pt = .ok g) :
    ∀ e ∈ g, ∃ row, (e.1, row) ∈ pt ∧ greedyBest row = .ok e.2 := by
  induction pt generalizing g with
  | nil => cases h; intro e he; cases he
  | cons hd tl ih =>
    rcases hd with ⟨item, row⟩
    simp only [greedyRows] at h
    rcases hb : greedyBest row with er | b
    · rw [hb] at h; cases h
    · rw [hb] at h
      rcases hr : greedyRows tl with er | r
      · rw [hr] at h; cases h
      · rw [hr] at h
        cases h
        intro e he
        rcases List.mem_cons.1 he with rfl | he
        · exact ⟨row, List.mem_cons_self _ _, hb⟩
        · rcases ih hr e he with ⟨row', hrow', hb'⟩
          exact ⟨row', List.mem_cons_of_mem _ hrow', hb'⟩

theorem store_mem_storesOf {pt : PriceTable} {i s : String} {row : Row}
    {o : Obs} (hrow : (i, row) ∈ pt) (ho : (s, o) ∈ row) :
    s ∈ storesOf pt := by
  unfold storesOf
  rw [List.mem_dedup, List.mem_flatten]
  exact ⟨row.map Prod.fst, List.mem_map.2 ⟨(i, row), hrow, rfl⟩,
    List.mem_map.2 ⟨(s, o), ho, rfl⟩⟩

theorem sum_filterMap_eq_map {α : Type} {h : α → Option ℚ} {f : α → ℚ}
    {l : List α} (hl : ∀ e ∈ l, h e = some (f e)) :
    (l.filterMap h).sum = (l.map f).sum := by
  induction l with
  | nil => rfl
  | cons hd tl ih =>
    rw [List.filterMap_cons, hl hd (List.mem_cons_self _ _)]
    dsimp only
    rw [List.sum_cons, List.map_cons, List.sum_cons,
      ih (fun e he => hl e (List.mem_cons_of_mem _ he))]

/-- The 0/1 assignment induced by a greedy result: item `i` is bought at
the store greedy chose for it. -/
def greedyX (g : GreedyResult) : String → String → Bool := fun i s =>
  match (g.lookup i).bind (fun v => v) with
  | some (st, _) => st == s
  | none => false

/-- The store-activation vector induced by a greedy result. -/
def greedyY (g : GreedyResult) : String → Bool := fun s =>
  decide (s ∈ greedyUsedStores g)

theorem ilp_obj_le_greedyTotal {pt : PriceTable} {fees : FeeTable}
    {cs : List ((String × String) × ℚ)} {g : GreedyResult}
    (hnd : ptKeysNodup pt) (hb : buildCosts pt = .ok cs)
    (hg : greedyRows pt = .ok g)
    (hall : ∀ e ∈ g, e.2.isSome = true)
    {x : String → String → Bool} {y : String → Bool}
    (hopt : ilpOptimal pt fees x y) :
    ilpObj pt fees x y ≤ greedyTotal fees g := by
  have hkeys : g.map Prod.fst = pt.map Prod.fst := greedyRows_ok_keys hg
  have hgnd : (g.map Prod.fst).Nodup := by rw [hkeys]; exact hnd.1
  have hentry : ∀ e ∈ g, ∃ st q,
      e.2 = some (st, some q) ∧ st ∈ storesOf pt ∧
      g.lookup e.1 = some e.2 ∧ costOf pt e.1 st = .ok q := by
    intro e he
    rcases greedyRows_ok_entry hg e he with ⟨row, hrow, hbest⟩
    have hsome := hall e he
    rcases hv : e.2 with _ | v
    · rw [hv] at hsome; cases hsome
    · rw [hv] at hbest
      rcases greedyBestAux_origin hbest with hacc | ⟨o, ho, hav, hp⟩
      · cases hacc
      · have hsm : v.1 ∈ storesOf pt := store_mem_storesOf hrow ho
        have hlookpt : pt.lookup e.1 = some row :=
          lookup_eq_some_of_nodup hnd.1 hrow
        have hlookrow : row.lookup v.1 = some o :=
          lookup_eq_some_of_nodup (hnd.2 (e.1, row) hrow) ho
        have him : e.1 ∈ itemsOf pt :=
          List.mem_map.2 ⟨(e.1, row), hrow, rfl⟩
        rcases buildCosts_ok_costOf hb him hsm with ⟨q', hq'⟩
        have hps : o.price = some (some q') :=
          costOf_ok_price_shape hq' (by rw [hlookpt]; exact hlookrow) hav
        have hv2 : v.2 = some q' := by
          rw [hp] at hps
          exact Option.some_inj.1 hps
        refine ⟨v.1, q', ?_, hsm,
          lookup_eq_some_of_nodup hgnd (by rw [← hv]; exact he), hq'⟩
        rw [← hv2]
  have hfg : ilpFeasible pt (greedyX g) (greedyY g) := by
    constructor
    · intro i hi
      have hi' : i ∈ g.map Prod.fst := by rw [hkeys]; exact hi
      rcases List.mem_map.1 hi' with ⟨e, he, hei⟩
      rcases hentry e he with ⟨st, q, hv, hsm, hlook, -⟩
      have hxg : (fun s => greedyX g i s) = (fun s => st == s) := by
        funext s
        simp only [greedyX]
        rw [← hei, hlook, hv]
        rfl
      rw [hxg]
      exact countP_beq_one (storesOf_nodup pt) hsm
    · intro i hi s hs hxs
      simp only [greedyX] at hxs
      rcases hgl : g.lookup i with _ | vv
      · rw [hgl] at hxs; cases hxs
      · rw [hgl] at hxs
        rcases hvv : vv with _ | v
        · rw [hvv] at hxs; cases hxs
        · rw [hvv] at hxs
          rcases v with ⟨st, pq⟩
          have hss : st = s := by simpa using hxs
          have hmemg : (i, some (st, pq)) ∈ g := by
            rw [← hvv]
            exact mem_of_lookup_eq_some hgl
          simp only [greedyY, decide_eq_true_eq]
          unfold greedyUsedStores
          rw [List.mem_dedup, List.mem_filterMap]
          exact ⟨(i, some (st, pq)), hmemg, by rw [← hss]; rfl⟩
  have hitem : itemTerm pt (greedyX g) =
      (g.filterMap (fun e => e.2.bind Prod.snd)).sum := by
    unfold itemTerm pairsOf
    rw [sum_map_flatten]
    have hinner : (itemsOf pt).map (fun i =>
          (((storesOf pt).map (fun s => (i, s))).map
            (fun p => costQ pt p.1 p.2 * bind01 (greedyX g p.1 p.2))).sum) =
        (itemsOf pt).map (fun i =>
          ((storesOf pt).map (fun s =>
            costQ pt i s * bind01 (greedyX g i s))).sum) := by
      apply List.map_congr_left
      intro i _
      rw [List.map_map]
      rfl
    rw [hinner]
    rw [show itemsOf pt = g.map Prod.fst from hkeys.symm, List.map_map]
    apply Eq.symm
    apply sum_filterMap_eq_map
    intro e he
    rcases hentry e he with ⟨st, q, hv, hsm, hlook, hcost⟩
    rw [hv]
    have hxg : (fun s => greedyX g e.1 s) = (fun s => st == s) := by
      funext s
      simp only [greedyX]
      rw [hlook, hv]
      rfl
    have hsum : ((storesOf pt).map (fun s =>
        costQ pt e.1 s * bind01 (greedyX g e.1 s))).sum = q := by
      have hcg : (storesOf pt).map (fun s =>
          costQ pt e.1 s * bind01 (greedyX g e.1 s)) =
          (storesOf pt).map (fun s => costQ pt e.1 s * bind01 (st == s)) := by
        apply List.map_congr_left
        intro s _
        rw [show greedyX g e.1 s = (st == s) from congrFun hxg s]
      rw [hcg, sum_mul_ind_single (costQ pt e.1) (storesOf_nodup pt) hsm]
      unfold costQ
      rw [hcost]
    show some q = _
    simp only [Function.comp]
    rw [hsum]
  have hfee : feeTerm pt fees (greedyY g) =
      ((greedyUsedStores g).map (feeOf fees)).sum := by
    unfold feeTerm
    have hp : ∀ s ∈ storesOf pt, feeOf fees s * bind01 (greedyY g s) =
        if decide (s ∈ greedyUsedStores g) then feeOf fees s else 0 := by
      intro s _
      simp only [greedyY, bind01]
      by_cases hmm : s ∈ greedyUsedStores g
      · simp [hmm]
      · simp [hmm]
    rw [List.map_congr_left hp, sum_map_ite_filter]
    apply sum_map_filter_mem (feeOf fees) (storesOf_nodup pt)
      (List.nodup_dedup _)
    intro a ha
    unfold greedyUsedStores at ha
    rw [List.mem_dedup, List.mem_filterMap] at ha
    rcases ha with ⟨e, he, hee⟩
    rcases hentry e he with ⟨st, q, hv, hsm, -, -⟩
    rw [hv] at hee
    have hst : st = a := by simpa using hee
    rw [← hst]
    exact hsm
  have hobj : ilpObj pt fees (greedyX g) (greedyY g) = greedyTotal fees g := by
    unfold ilpObj greedyTotal
    rw [hitem, hfee]
  exact le_of_le_of_eq (hopt.2 _ _ hfg) hobj

theorem bind01_true : bind01 true = 1 := rfl

theorem bind01_false : bind01 false = 0 := rfl

/-- Scenario D: milk A 50 / B 48, bread A 30 / B 60, all available. -/
def ptD : PriceTable :=
  [("milk", [("A", ⟨some (some 50), some true⟩),
             ("B", ⟨some (some 48), some true⟩)]),
   ("bread", [("A", ⟨some (some 30), some true⟩),
              ("B", ⟨some (some 60), some true⟩)])]

def feesD : FeeTable := [("A", 20), ("B", 20)]

/-- Greedy's output on Scenario D: B for milk, A for bread. -/
def gD : GreedyResult := [("milk", some ("B", some 48)),
                          ("bread", some ("A", some 30))]

/-- The consolidated solution: both items at store A. -/
def xDA : String → String → Bool := fun _ s => s == "A"

def yDA : String → Bool := fun s => s == "A"

theorem objD_expand (x : String → String → Bool) (y : String → Bool) :
    ilpObj ptD feesD x y =
      50 * bind01 (x "milk" "A") + 48 * bind01 (x "milk" "B") +
      30 * bind01 (x "bread" "A") + 60 * bind01 (x "bread" "B") +
      (20 * bind01 (y "A") + 20 * bind01 (y "B")) := by
  unfold ilpObj itemTerm feeTerm
  rw [show pairsOf ptD =
    [("milk", "A"), ("milk", "B"), ("bread", "A"), ("bread", "B")] from rfl]
  rw [show storesOf ptD = ["A", "B"] from rfl]
  simp only [List.map_cons, List.map_nil, List.sum_cons, List.sum_nil]
  rw [show costQ ptD "milk" "A" = 50 from rfl,
    show costQ ptD "milk" "B" = 48 from rfl,
    show costQ ptD "bread" "A" = 30 from rfl,
    show costQ ptD "bread" "B" = 60 from rfl,
    show feeOf feesD "A" = 20 from rfl,
    show feeOf feesD "B" = 20 from rfl]
  ring

theorem objD_main {x : String → String → Bool} {y : String → Bool}
    (hf : ilpFeasible ptD x y) :
    100 ≤ ilpObj ptD feesD x y ∧
    (ilpObj ptD feesD x y ≤ 100 →
      x "milk" "A" = true ∧ x "milk" "B" = false ∧
      x "bread" "A" = true ∧ x "bread" "B" = false) := by
  have hmilk := hf.1 "milk" (by decide)
  have hbread := hf.1 "bread" (by decide)
  rw [show storesOf ptD = ["A", "B"] from rfl] at hmilk hbread
  have hm2 : (x "milk" "A" = true ∧ x "milk" "B" = false) ∨
      (x "milk" "A" = false ∧ x "milk" "B" = true) := by
    rcases hA : x "milk" "A" with _ | _ <;> rcases hB : x "milk" "B" with _ | _
    · exfalso
      rw [List.countP_cons, List.countP_cons, List.countP_nil] at hmilk
      simp [hA, hB] at hmilk
    · exact Or.inr ⟨rfl, rfl⟩
    · exact Or.inl ⟨rfl, rfl⟩
    · exfalso
      rw [List.countP_cons, List.countP_cons, List.countP_nil] at hmilk
      simp [hA, hB] at hmilk
  have hb2 : (x "bread" "A" = true ∧ x "bread" "B" = false) ∨
      (x "bread" "A" = false ∧ x "bread" "B" = true) := by
    rcases hA : x "bread" "A" with _ | _ <;> rcases hB : x "bread" "B" with _ | _
    · exfalso
      rw [List.countP_cons, List.countP_cons, List.countP_nil] at hbread
      simp [hA, hB] at hbread
    · exact Or.inr ⟨rfl, rfl⟩
    · exact Or.inl ⟨rfl, rfl⟩
    · exfalso
      rw [List.countP_cons, List.countP_cons, List.countP_nil] at hbread
      simp [hA, hB] at hbread
  have ho := objD_expand x y
  have hmA' : "milk" ∈ itemsOf ptD := by decide
  have hbA' : "bread" ∈ itemsOf ptD := by decide
  have hsA : "A" ∈ storesOf ptD := by decide
  have hsB : "B" ∈ storesOf ptD := by decide
  rcases hm2 with ⟨hmA, hmB⟩ | ⟨hmA, hmB⟩ <;>
    rcases hb2 with ⟨hbA, hbB⟩ | ⟨hbA, hbB⟩
  · have hyA : y "A" = true := hf.2 "milk" hmA' "A" hsA hmA
    rw [hmA, hmB, hbA, hbB, hyA, bind01_true, bind01_false] at ho
    constructor
    · rw [ho]
      have := bind01_nonneg (y "B")
      linarith
    · intro _
      exact ⟨hmA, hmB, hbA, hbB⟩
  · have hyA : y "A" = true := hf.2 "milk" hmA' "A" hsA hmA
    have hyB : y "B" = true := hf.2 "bread" hbA' "B" hsB hbB
    rw [hmA, hmB, hbA, hbB, hyA, hyB, bind01_true, bind01_false] at ho
    constructor
    · rw [ho]; norm_num
    · intro hle
      rw [ho] at hle
      norm_num at hle
  · have hyA : y "A" = true := hf.2 "bread" hbA' "A" hsA hbA
    have hyB : y "B" = true := hf.2 "milk" hmA' "B" hsB hmB
    rw [hmA, hmB, hbA, hbB, hyA, hyB, bind01_true, bind01_false] at ho
    constructor
    · rw [ho]; norm_num
    · intro hle
      rw [ho] at hle
      norm_num at hle
  · have hyB : y "B" = true := hf.2 "milk" hmA' "B" hsB hmB
    rw [hmA, hmB, hbA, hbB, hyB, bind01_true, bind01_false] at ho
    constructor
    · rw [ho]
      have := bind01_nonneg (y "A")
      linarith
    · intro hle
      rw [ho] at hle
      have := bind01_nonneg (y "A")
      exfalso
      linarith

theorem xDA_feasible : ilpFeasible ptD xDA yDA := by decide

theorem objDA : ilpObj ptD feesD xDA yDA = 100 := by
  rw [objD_expand]
  rw [show xDA "milk" "A" = true from rfl, show xDA "milk" "B" = false from rfl,
    show xDA "bread" "A" = true from rfl, show xDA "bread" "B" = false from rfl,
    show yDA "A" = true from rfl, show yDA "B" = false from rfl]
  simp only [bind01_true, bind01_false]
  norm_num

theorem assignTotalD :
    assignTotal feesD
      [("milk", ("A", some 50)), ("bread", ("A", some 30))] = 100 := by
  unfold assignTotal
  rw [show ([("milk", ("A", some 50)), ("bread", ("A", some 30))] :
      IlpResult).map (fun e => (e.2.2).getD 0) = [(50 : ℚ), 30] from rfl]
  rw [show usedStores
      [("milk", ("A", some 50)), ("bread", ("A", some 30))] = ["A"] from rfl]
  rw [show (["A"].map (feeOf feesD)) = [(20 : ℚ)] from rfl]
  norm_num [List.sum_cons, List.sum_nil]

theorem greedyTotalD : greedyTotal feesD gD = 118 := by
  unfold greedyTotal
  rw [show gD.filterMap (fun e => e.2.bind Prod.snd) = [(48 : ℚ), 30] from rfl]
  rw [show greedyUsedStores gD = ["B", "A"] from rfl]
  rw [show (["B", "A"].map (feeOf feesD)) = [(20 : ℚ), 20] from rfl]
  norm_num [List.sum_cons, List.sum_nil]

theorem xDA_optimal : ilpOptimal ptD feesD xDA yDA :=
  ⟨xDA_feasible, fun x' y' hf' => by
    rw [objDA]
    exact (objD_main hf').1⟩

/-- C4 (amended): whenever ILP model construction succeeds and greedy
assigns every item (its natural domain: key-unique tables), the optimal
objective value of the Exact model is at most the Greedy assignment's
total cost under the same fee table; and in Scenario D every optimal
solution selects store A for both items, with extracted total 100 against
Greedy's 118.  As stated over *all* PriceTables the claim fails: for an
item with no usable observation the extraction emits the unavailable
store's recorded price, which can exceed the Greedy total (see the
counterexample). -/
theorem claim_C4_exact_le_greedy :
    (∀ (pt : PriceTable) (fees : FeeTable)
        (cs : List ((String × String) × ℚ)) (g : GreedyResult)
        (x : String → String → Bool) (y : String → Bool),
      ptKeysNodup pt → buildCosts pt = .ok cs →
      greedy_optimize pt (some fees) none = .ok g →
      (∀ e ∈ g, e.2.isSome = true) → ilpOptimal pt fees x y →
      ilpObj pt fees x y ≤ greedyTotal fees g) ∧
    (∀ (x : String → String → Bool) (y : String → Bool),
      ilpOptimal ptD feesD x y →
      ilp_optimize ptD feesD x =
        .ok [("milk", ("A", some 50)), ("bread", ("A", some 30))] ∧
      assignTotal feesD
        [("milk", ("A", some 50)), ("bread", ("A", some 30))] = 100 ∧
      greedy_optimize ptD (some feesD) none = .ok gD ∧
      greedyTotal feesD gD = 118) := by
  constructor
  · intro pt fees cs g x y hnd hb hg hall hopt
    exact ilp_obj_le_greedyTotal hnd hb hg hall hopt
  · intro x y hopt
    have hle : ilpObj ptD feesD x y ≤ 100 := by
      have h := hopt.2 xDA yDA xDA_feasible
      rw [objDA] at h
      exact h
    rcases (objD_main hopt.1).2 hle with ⟨hmA, hmB, hbA, hbB⟩
    have hm : extractAux ptD x "milk" (storesOf ptD) none =
        .ok (some ("A", some 50)) := by
      rw [show storesOf ptD = ["A", "B"] from rfl]
      simp [extractAux, hmA, hmB,
        show extractPrice ptD "milk" "A" = .ok (some 50) from rfl]
    have hbr : extractAux ptD x "bread" (storesOf ptD) none =
        .ok (some ("A", some 30)) := by
      rw [show storesOf ptD = ["A", "B"] from rfl]
      simp [extractAux, hbA, hbB,
        show extractPrice ptD "bread" "A" = .ok (some 30) from rfl]
    refine ⟨?_, assignTotalD, rfl, greedyTotalD⟩
    unfold ilp_optimize
    rw [show buildCosts ptD = .ok [(("milk", "A"), 50), (("milk", "B"), 48),
      (("bread", "A"), 30), (("bread", "B"), 60)] from rfl]
    show ilpExtractRows ptD x ["milk", "bread"] = _
    simp only [ilpExtractRows, hm, hbr]

/-- C4 counterexample: at a table whose only item is unavailable
everywhere (store A records price 7, `available == false`, no fees), the
optimal — indeed only — feasible ILP solution is extracted as
`("A", 7)`, total 7, while greedy assigns nothing, total 0; the claimed
inequality `exact ≤ greedy` fails since `7 ≤ 0` is false. -/
theorem claim_C4_counterexample :
    ilpOptimal ptUnavail [] xAll yAll ∧
    ilp_optimize ptUnavail [] xAll = .ok [("x", ("A", some 7))] ∧
    assignTotal [] [("x", ("A", some 7))] = 7 ∧
    greedy_optimize ptUnavail (some []) none = .ok [("x", none)] ∧
    greedyTotal [] [("x", none)] = 0 ∧
    ¬((7 : ℚ) ≤ 0) := by
  refine ⟨?_, rfl, ?_, rfl, ?_, by norm_num⟩
  case refine_2 =>
    unfold assignTotal
    rw [show ([("x", ("A", some 7))] : IlpResult).map
        (fun e => (e.2.2).getD 0) = [(7 : ℚ)] from rfl]
    rw [show usedStores [("x", ("A", some 7))] = ["A"] from rfl]
    rw [show (["A"].map (feeOf ([] : FeeTable))) = [(0 : ℚ)] from rfl]
    norm_num [List.sum_cons, List.sum_nil]
  case refine_3 =>
    unfold greedyTotal
    rw [show ([("x", (none : GreedyVal))] : GreedyResult).filterMap
        (fun e => e.2.bind Prod.snd) = ([] : List ℚ) from rfl]
    rw [show greedyUsedStores [("x", (none : GreedyVal))] = [] from rfl]
    norm_num
  exact optimal_single (show itemsOf ptUnavail = ["x"] from rfl)
    (show storesOf ptUnavail = ["A"] from rfl) (by decide)

/-- Witness for C4: the general inequality applied to a one-item instance,
and the Scenario D consequence applied to the consolidated optimal
solution. -/
theorem claim_C4_exact_le_greedy_witness :
    (ptKeysNodup ptSingleAvail ∧
      ilpObj ptSingleAvail feesSingle xAll yAll ≤
        greedyTotal feesSingle [("i", some ("A", some 5))]) ∧
    (ilp_optimize ptD feesD xDA =
        .ok [("milk", ("A", some 50)), ("bread", ("A", some 30))] ∧
      greedyTotal feesD gD = 118) := by
  constructor
  · refine ⟨by decide, ?_⟩
    exact claim_C4_exact_le_greedy.1 ptSingleAvail feesSingle _ _ xAll yAll
      (by decide) rfl rfl (by decide)
      (optimal_single (show itemsOf ptSingleAvail = ["i"] from rfl)
        (show storesOf ptSingleAvail = ["A"] from rfl) (by decide))
  · have h := claim_C4_exact_le_greedy.2 xDA yDA xDA_optimal
    exact ⟨h.1, h.2.2.2⟩
